import Mathlib

/-!
Verification of the `fwht` crate (Fast Walsh–Hadamard Transform).

The Rust sources are embedded shallowly: a mutable slice becomes a `List α`
threaded through state-passing functions, `Result<(), &'static str>` becomes
`Except String Unit`, and the element bound `Add + Sub + Copy` becomes the
instance binders `[Add α] [Sub α]` (duplication is implicit for pure values).
Machine integers (`usize`) are modelled as `Nat`; the crate never exercises
overflow on lengths.
-/

/-- Fuel-driven helper for `popcount`: the fuel only bounds the recursion
depth, `popcount n` calls it with fuel `n`, which always suffices since the
argument at least halves at every step. -/
def popcountAux : Nat → Nat → Nat
  | 0, _ => 0
  | fuel + 1, n => if n = 0 then 0 else n % 2 + popcountAux fuel (n / 2)

/-- Number of set binary digits of `n` (Rust `usize::count_ones`). -/
def popcount (n : Nat) : Nat := popcountAux n n

/-- Models Rust `usize::is_power_of_two`, which is `count_ones() == 1`. -/
def is_power_of_two (n : Nat) : Bool := popcount n == 1

/-- `src/core.rs` `is_valid_fwht_length`: `n == 0 || n.is_power_of_two()`. -/
def is_valid_fwht_length (n : Nat) : Bool := n == 0 || is_power_of_two n

/-- Models Rust `usize::next_power_of_two` (smallest power of two `≥ n`) as
the doubling loop, fuel-driven; `next_power_of_two` supplies fuel `n`, which
suffices because the running power doubles from 1 and exceeds `n` after at
most `log2 n + 1 ≤ n` steps. -/
def nextPowAux : Nat → Nat → Nat → Nat
  | 0, _, power => power
  | fuel + 1, n, power => if power < n then nextPowAux fuel n (power * 2) else power

/-- `src/core.rs` `next_power_of_two`:
`if n == 0 { 1 } else { n.next_power_of_two() }`. -/
def next_power_of_two (n : Nat) : Nat :=
  if n = 0 then 1 else nextPowAux n n 1

/-- Body of the innermost loop of `fwht_slice`: read `x = data[j]`,
`y = data[j + h]`, write `data[j] = x + y`, `data[j + h] = x - y`.  In the
source the reads are always in bounds; out-of-bounds indices (which would
panic in Rust) leave the list unchanged here and never arise in any call. -/
def bfly {α : Type _} [Add α] [Sub α] (d : List α) (j h : Nat) : List α :=
  match d[j]?, d[j + h]? with
  | some x, some y => (d.set j (x + y)).set (j + h) (x - y)
  | _, _ => d

/-- The loop `for j in i..i + h { ... }` of `fwht_slice`. -/
def innerLoop {α : Type _} [Add α] [Sub α] (d : List α) (i h : Nat) : List α :=
  (List.range h).foldl (fun acc t => bfly acc (i + t) h) d

/-- The index sequence of Rust `(0..n).step_by(step)` for `step ≥ 1`:
`0, step, 2*step, ...` strictly below `n`. -/
def stepByIdxs (n step : Nat) : List Nat :=
  (List.range ((n + step - 1) / step)).map (fun k => k * step)

/-- The loop `for i in (0..n).step_by(h * 2) { ... }` of `fwht_slice`. -/
def midLoop {α : Type _} [Add α] [Sub α] (d : List α) (n h : Nat) : List α :=
  (stepByIdxs n (h * 2)).foldl (fun acc i => innerLoop acc i h) d

/-- The `while h < n` loop of `fwht_slice`, fuel-driven: `h` starts at 1 and
doubles each stage, so `log2 n ≤ n` iterations always suffice; `fwht_slice`
supplies fuel `n`. -/
def whLoopAux {α : Type _} [Add α] [Sub α] : Nat → List α → Nat → Nat → List α
  | 0, d, _, _ => d
  | fuel + 1, d, n, h =>
    if h < n then whLoopAux fuel (midLoop d n h) n (h * 2) else d

/-- `src/core.rs` `fwht_slice`.  The returned pair is the call's `Result`
together with the final contents of the slice (state-passing rendering of
`&mut [T]`). -/
def fwht_slice {α : Type _} [Add α] [Sub α] (data : List α) :
    Except String Unit × List α :=
  let n := data.length
  if n = 0 then (Except.ok (), data)
  else if !(is_power_of_two n) then
    (Except.error "Input length must be a power of 2", data)
  else (Except.ok (), whLoopAux n data n 1)

/-- `src/functions.rs` `fwht_mut`: delegates to `fwht_slice` on the mutable
view (`data.as_mut()` is the identity on the underlying sequence). -/
def fwht_mut {α : Type _} [Add α] [Sub α] (data : List α) :
    Except String Unit × List α :=
  fwht_slice data

/-- `src/functions.rs` `fwht`: clones the input, applies `fwht_mut` to the
clone, and returns it; the second component is the input as seen after the
call (the clone is independent storage, so it is the input itself). -/
def fwht {α : Type _} [Add α] [Sub α] (data : List α) :
    Except String (List α) × List α :=
  let r := fwht_mut data
  (match r.1 with
   | Except.ok _ => Except.ok r.2
   | Except.error e => Except.error e, data)

/-- `src/impls/vec.rs` `FWHT::fwht_mut` for `Vec<T>`:
`fwht_slice(self.as_mut_slice())`. -/
def vec_fwht_mut {α : Type _} [Add α] [Sub α] (v : List α) :
    Except String Unit × List α :=
  fwht_slice v

/-- `src/impls/vec.rs` `FWHT::fwht` for `Vec<T>`: clone, transform the clone
in place, return it; the original (second component) is untouched. -/
def vec_fwht {α : Type _} [Add α] [Sub α] (v : List α) :
    Except String (List α) × List α :=
  let r := vec_fwht_mut v
  (match r.1 with
   | Except.ok _ => Except.ok r.2
   | Except.error e => Except.error e, v)

/-- `src/impls/array.rs` `FWHT::fwht_mut` for `[T; N]`:
`fwht_slice(self.as_mut_slice())`. -/
def arr_fwht_mut {α : Type _} [Add α] [Sub α] (a : List α) :
    Except String Unit × List α :=
  fwht_slice a

/-- `src/impls/array.rs` `FWHT::fwht` for `[T; N]`: flat copy, transform the
copy in place, return it. -/
def arr_fwht {α : Type _} [Add α] [Sub α] (a : List α) :
    Except String (List α) × List α :=
  let r := arr_fwht_mut a
  (match r.1 with
   | Except.ok _ => Except.ok r.2
   | Except.error e => Except.error e, a)

/-- Model of `ndarray::Array1<T>`: element contents plus whether the backing
storage is one contiguous run (the only property of the external type the
crate's code inspects). -/
structure Array1 (α : Type _) where
  data : List α
  contiguous : Bool

/-- Models the external `ndarray` method `as_slice_mut`, which yields the
underlying slice exactly when the storage is contiguous. -/
def Array1.as_slice_mut {α : Type _} (a : Array1 α) : Option (List α) :=
  if a.contiguous then some a.data else none

/-- `src/impls/ndarray.rs` `FWHT::fwht_mut` for `Array1<T>`: transform the
contiguous view in place, otherwise fail with the contiguity error. -/
def Array1.fwht_mut {α : Type _} [Add α] [Sub α] (a : Array1 α) :
    Except String Unit × Array1 α :=
  match a.as_slice_mut with
  | some s =>
    let r := fwht_slice s
    (r.1, { data := r.2, contiguous := a.contiguous })
  | none => (Except.error "Array must be contiguous for FWHT", a)

/-- `src/impls/ndarray.rs` `FWHT::fwht` for `Array1<T>`: clone, transform the
clone in place, return it. -/
def Array1.fwht {α : Type _} [Add α] [Sub α] (a : Array1 α) :
    Except String (Array1 α) × Array1 α :=
  let r := Array1.fwht_mut a
  (match r.1 with
   | Except.ok _ => Except.ok r.2
   | Except.error e => Except.error e, a)

/-- Functional rendering of one butterfly stage with half-block size `h`:
split the list into blocks of `2h` and replace each block `u ++ v`
(`|u| = |v| = h`) by `(u + v) ++ (u - v)` pointwise.  Proved below to agree
with `midLoop` on lists whose length is a multiple of `2h`. -/
def blockPass {α : Type _} [Add α] [Sub α] (h : Nat) (d : List α) : List α :=
  if d.length < h * 2 ∨ h = 0 then d
  else
    List.zipWith (· + ·) (d.take h) ((d.drop h).take h) ++
      (List.zipWith (· - ·) (d.take h) ((d.drop h).take h) ++
        blockPass h (d.drop (h * 2)))
termination_by d.length
decreasing_by
  simp only [List.length_drop]
  omega

/-- All `m` butterfly stages (`h = 1, 2, ..., 2^(m-1)`) in loop order. -/
def fwhtStages {α : Type _} [Add α] [Sub α] (m : Nat) (d : List α) : List α :=
  (List.range m).foldl (fun acc s => blockPass (2 ^ s) acc) d

/-- Recursive (decimation-in-time) Walsh–Hadamard transform on a list of
length `2^m`: transform both halves, then combine with one butterfly layer. -/
def whtRec {α : Type _} [Add α] [Sub α] : Nat → List α → List α
  | 0, d => d
  | m + 1, d =>
    let u := whtRec m (d.take (2 ^ m))
    let v := whtRec m (d.drop (2 ^ m))
    List.zipWith (· + ·) u v ++ List.zipWith (· - ·) u v

/-! ### Arithmetic helpers: popcount and powers of two -/

theorem popcountAux_zero_arg (f : Nat) : popcountAux f 0 = 0 := by
  cases f <;> simp [popcountAux]

theorem popcountAux_congr :
    ∀ f g n : Nat, n ≤ f → n ≤ g → popcountAux f n = popcountAux g n := by
  intro f
  induction f with
  | zero =>
    intro g n hf _
    have hn : n = 0 := Nat.le_zero.mp hf
    subst hn
    rw [popcountAux_zero_arg, popcountAux_zero_arg]
  | succ f ih =>
    intro g n hf hg
    rcases Nat.eq_zero_or_pos n with h0 | hpos
    · subst h0
      rw [popcountAux_zero_arg, popcountAux_zero_arg]
    · obtain ⟨g', rfl⟩ : ∃ g', g = g' + 1 := ⟨g - 1, by omega⟩
      have hne : n ≠ 0 := by omega
      simp only [popcountAux, if_neg hne]
      have hdiv : n / 2 < n := Nat.div_lt_self hpos (by omega)
      rw [ih g' (n / 2) (by omega) (by omega)]

theorem popcount_rec {n : Nat} (hn : n ≠ 0) :
    popcount n = n % 2 + popcount (n / 2) := by
  obtain ⟨k, rfl⟩ : ∃ k, n = k + 1 := ⟨n - 1, by omega⟩
  show popcountAux (k + 1) (k + 1) = _
  simp only [popcountAux, if_neg hn]
  congr 1
  exact popcountAux_congr k ((k + 1) / 2) ((k + 1) / 2) (by omega) (Nat.le_refl _)

theorem popcount_two_pow (k : Nat) : popcount (2 ^ k) = 1 := by
  induction k with
  | zero => rfl
  | succ k ih =>
    have hne : (2 : Nat) ^ (k + 1) ≠ 0 := by positivity
    rw [popcount_rec hne, pow_succ]
    simp [Nat.mul_mod_left, Nat.mul_div_cancel, ih]

theorem popcount_eq_zero : ∀ n, popcount n = 0 → n = 0 := by
  intro n
  induction n using Nat.strong_induction_on with
  | _ n ih =>
    intro h
    by_contra hn
    rw [popcount_rec hn] at h
    have h2 : popcount (n / 2) = 0 := by omega
    have h3 := ih (n / 2) (Nat.div_lt_self (by omega) (by omega)) h2
    omega

theorem pow2_of_popcount_one : ∀ n, popcount n = 1 → ∃ k, n = 2 ^ k := by
  intro n
  induction n using Nat.strong_induction_on with
  | _ n ih =>
    intro h
    have hn : n ≠ 0 := by
      intro h0
      subst h0
      simp [popcount, popcountAux] at h
    rw [popcount_rec hn] at h
    have hm2 : n % 2 = 0 ∨ n % 2 = 1 := by omega
    rcases hm2 with hm | hm
    · have hpc : popcount (n / 2) = 1 := by omega
      obtain ⟨k, hk⟩ := ih (n / 2) (Nat.div_lt_self (by omega) (by omega)) hpc
      refine ⟨k + 1, ?_⟩
      rw [pow_succ]
      omega
    · have hpc : popcount (n / 2) = 0 := by omega
      have := popcount_eq_zero (n / 2) hpc
      exact ⟨0, by omega⟩

theorem is_power_of_two_iff (n : Nat) :
    is_power_of_two n = true ↔ ∃ k, n = 2 ^ k := by
  unfold is_power_of_two
  rw [beq_iff_eq]
  constructor
  · exact pow2_of_popcount_one n
  · rintro ⟨k, rfl⟩
    exact popcount_two_pow k

theorem is_power_of_two_eq_false {n : Nat} (h : ∀ k, n ≠ 2 ^ k) :
    is_power_of_two n = false := by
  cases hb : is_power_of_two n with
  | false => rfl
  | true =>
    obtain ⟨k, hk⟩ := (is_power_of_two_iff n).mp hb
    exact absurd hk (h k)

theorem is_valid_fwht_length_iff (n : Nat) :
    is_valid_fwht_length n = true ↔ n = 0 ∨ ∃ k, n = 2 ^ k := by
  unfold is_valid_fwht_length
  rw [Bool.or_eq_true, beq_iff_eq, is_power_of_two_iff]

theorem nextPowAux_spec :
    ∀ fuel j n : Nat, n ≤ 2 ^ j * 2 ^ fuel →
      (∃ t, nextPowAux fuel n (2 ^ j) = 2 ^ t) ∧
      n ≤ nextPowAux fuel n (2 ^ j) ∧
      ∀ s, j ≤ s → n ≤ 2 ^ s → nextPowAux fuel n (2 ^ j) ≤ 2 ^ s := by
  intro fuel
  induction fuel with
  | zero =>
    intro j n hle
    simp only [nextPowAux]
    refine ⟨⟨j, rfl⟩, by simpa using hle, fun s hs _ => Nat.pow_le_pow_right (by omega) hs⟩
  | succ fuel ih =>
    intro j n hle
    simp only [nextPowAux]
    by_cases hlt : 2 ^ j < n
    · rw [if_pos hlt]
      have h2 : (2 : Nat) ^ j * 2 = 2 ^ (j + 1) := (pow_succ 2 j).symm
      rw [h2]
      have hle' : n ≤ 2 ^ (j + 1) * 2 ^ fuel := by
        calc n ≤ 2 ^ j * 2 ^ (fuel + 1) := hle
        _ = 2 ^ (j + 1) * 2 ^ fuel := by ring
      obtain ⟨ht, hge, hmin⟩ := ih (j + 1) n hle'
      refine ⟨ht, hge, fun s hs hns => ?_⟩
      have hjs : j + 1 ≤ s := by
        rcases Nat.lt_or_ge j s with h | h
        · omega
        · exfalso
          have hps : (2 : Nat) ^ s ≤ 2 ^ j := Nat.pow_le_pow_right (by omega) h
          omega
      exact hmin s hjs hns
    · rw [if_neg hlt]
      refine ⟨⟨j, rfl⟩, by omega, fun s hs _ => Nat.pow_le_pow_right (by omega) hs⟩

theorem next_power_of_two_spec (n : Nat) :
    (∃ k, next_power_of_two n = 2 ^ k) ∧ n ≤ next_power_of_two n ∧
      ∀ k, n ≤ 2 ^ k → next_power_of_two n ≤ 2 ^ k := by
  unfold next_power_of_two
  by_cases h0 : n = 0
  · subst h0
    simp only [if_pos rfl]
    exact ⟨⟨0, rfl⟩, by omega, fun k _ => Nat.one_le_two_pow⟩
  · rw [if_neg h0]
    have h1 : (1 : Nat) = 2 ^ 0 := rfl
    rw [h1]
    have hle : n ≤ 2 ^ 0 * 2 ^ n := by
      have := Nat.lt_two_pow n
      simpa using this.le
    obtain ⟨ht, hge, hmin⟩ := nextPowAux_spec n 0 n hle
    exact ⟨ht, hge, fun k hk => hmin k (Nat.zero_le k) hk⟩

/-! ### Unfolding helpers for `fwht_slice` -/

theorem fwht_slice_pow {α : Type _} [Add α] [Sub α] (m : Nat) (d : List α)
    (hd : d.length = 2 ^ m) :
    fwht_slice d = (Except.ok (), whLoopAux (2 ^ m) d (2 ^ m) 1) := by
  have hne : (2 : Nat) ^ m ≠ 0 := by positivity
  have hp : is_power_of_two (2 ^ m) = true := (is_power_of_two_iff _).mpr ⟨m, rfl⟩
  simp only [fwht_slice, hd]
  rw [if_neg hne]
  simp [hp]

theorem fwht_slice_invalid {α : Type _} [Add α] [Sub α] (d : List α)
    (h0 : d.length ≠ 0) (hp : ∀ k, d.length ≠ 2 ^ k) :
    fwht_slice d = (Except.error "Input length must be a power of 2", d) := by
  have hf : is_power_of_two d.length = false := is_power_of_two_eq_false hp
  simp [fwht_slice, h0, hf]

theorem ne_two_pow_of_not_power {n : Nat} (h : is_power_of_two n = false) :
    ∀ k, n ≠ 2 ^ k := by
  intro k hk
  have ht : is_power_of_two n = true := (is_power_of_two_iff n).mpr ⟨k, hk⟩
  rw [h] at ht
  simp at ht

/-! ### Claims C3–C10 (C1 and C2 appear after the loop/recursion equivalence) -/

/-- C3: for every sequence whose length is neither 0 nor a power of two, all
in-place operations (`fwht_slice`, `fwht_mut`, the `Vec`, array and
contiguous-`Array1` trait impls) and all copy operations (`fwht` and the
trait `fwht`s) fail with the `InvalidLength` error and leave the input
sequence completely unchanged — the length check precedes any write. -/
theorem fwht_invalid_length_rejected_unchanged (α : Type) [Add α] [Sub α]
    (d : List α) (h0 : d.length ≠ 0) (hp : ∀ k, d.length ≠ 2 ^ k) :
    fwht_slice d = (Except.error "Input length must be a power of 2", d) ∧
    fwht_mut d = (Except.error "Input length must be a power of 2", d) ∧
    vec_fwht_mut d = (Except.error "Input length must be a power of 2", d) ∧
    arr_fwht_mut d = (Except.error "Input length must be a power of 2", d) ∧
    Array1.fwht_mut ⟨d, true⟩ =
      (Except.error "Input length must be a power of 2", (⟨d, true⟩ : Array1 α)) ∧
    fwht d = (Except.error "Input length must be a power of 2", d) ∧
    vec_fwht d = (Except.error "Input length must be a power of 2", d) ∧
    arr_fwht d = (Except.error "Input length must be a power of 2", d) ∧
    Array1.fwht ⟨d, true⟩ =
      (Except.error "Input length must be a power of 2", (⟨d, true⟩ : Array1 α)) := by
  have hs := fwht_slice_invalid d h0 hp
  refine ⟨hs, hs, hs, hs, ?_, ?_, ?_, ?_, ?_⟩
  · simp [Array1.fwht_mut, Array1.as_slice_mut, hs]
  · simp [fwht, fwht_mut, hs]
  · simp [vec_fwht, vec_fwht_mut, hs]
  · simp [arr_fwht, arr_fwht_mut, hs]
  · simp [Array1.fwht, Array1.fwht_mut, Array1.as_slice_mut, hs]

/-- Witness for C3 at the concrete invalid input `[1, 2, 3]`. -/
theorem fwht_invalid_length_witness :
    fwht_slice ([1, 2, 3] : List Int) =
      (Except.error "Input length must be a power of 2", [1, 2, 3]) :=
  (fwht_invalid_length_rejected_unchanged Int [1, 2, 3] (by decide)
    (ne_two_pow_of_not_power rfl)).1

/-- C4: every copy-producing operation (free `fwht`, `Vec::fwht`,
`[T; N]::fwht`, `Array1::fwht`) leaves its input with its original length and
element values, for every input and whether the call succeeds or fails: the
duplicate is created before any mutation and is independent storage. -/
theorem fwht_copy_ops_never_mutate (α : Type) [Add α] [Sub α]
    (d : List α) (a : Array1 α) :
    (fwht d).2 = d ∧ (vec_fwht d).2 = d ∧ (arr_fwht d).2 = d ∧
    (Array1.fwht a).2 = a :=
  ⟨rfl, rfl, rfl, rfl⟩

/-- C5: the transform yields exactly the spec's concrete vectors, with the
floating-point examples read in exact arithmetic (all values are small
integers, so `f64` evaluation agrees). -/
theorem fwht_concrete_vectors :
    fwht_slice ([1, 1, 1, 0] : List Int) = (Except.ok (), [3, 1, 1, -1]) ∧
    fwht_slice ([1, 1, 1, 1, 0, 0, 0, 0] : List Int) =
      (Except.ok (), [4, 0, 0, 0, 4, 0, 0, 0]) ∧
    fwht_slice ([42] : List Int) = (Except.ok (), [42]) ∧
    fwht_slice ([3, 5] : List Int) = (Except.ok (), [8, -2]) ∧
    fwht_slice ([] : List Int) = (Except.ok (), []) ∧
    fwht_slice ([1, 2, 3, 4] : List Int) = (Except.ok (), [10, -2, -4, 0]) :=
  ⟨rfl, rfl, rfl, rfl, rfl, rfl⟩

/-- C6: on a non-contiguous `Array1`, `fwht_mut` fails with the distinct
`NotContiguous` error (different from the `InvalidLength` message), performs
no strided transform, and leaves the array unmodified; the model is a total
function, so no abort occurs. -/
theorem ndarray_noncontiguous_error (α : Type) [Add α] [Sub α] (a : Array1 α)
    (h : a.contiguous = false) :
    Array1.fwht_mut a = (Except.error "Array must be contiguous for FWHT", a) ∧
    ("Array must be contiguous for FWHT" : String) ≠
      "Input length must be a power of 2" := by
  constructor
  · simp [Array1.fwht_mut, Array1.as_slice_mut, h]
  · decide

/-- Witness for C6 at a concrete non-contiguous array. -/
theorem ndarray_noncontiguous_witness :
    Array1.fwht_mut (⟨[1, 2], false⟩ : Array1 Int) =
      (Except.error "Array must be contiguous for FWHT",
        (⟨[1, 2], false⟩ : Array1 Int)) :=
  (ndarray_noncontiguous_error Int ⟨[1, 2], false⟩ rfl).1

/-- C7: all entry points share the single engine: the free `fwht_mut`, the
`Vec` and array trait `fwht_mut`s coincide with `fwht_slice` on the
underlying sequence (outcome and final contents), and the free `fwht` on a
`Vec` coincides with the trait `fwht`. -/
theorem entry_points_delegate (α : Type) [Add α] [Sub α] (d : List α) :
    fwht_mut d = fwht_slice d ∧ vec_fwht_mut d = fwht_slice d ∧
    arr_fwht_mut d = fwht_slice d ∧ fwht d = vec_fwht d :=
  ⟨rfl, rfl, rfl, rfl⟩

/-- C8: `next_power_of_two` is pure and total (a Lean function), returns 1 on
0 and 1, satisfies the spec's sample values, and always returns the smallest
power of two greater than or equal to its argument. -/
theorem next_power_of_two_correct :
    next_power_of_two 0 = 1 ∧ next_power_of_two 1 = 1 ∧
    next_power_of_two 3 = 4 ∧ next_power_of_two 5 = 8 ∧
    next_power_of_two 8 = 8 ∧ next_power_of_two 9 = 16 ∧
    ∀ n : Nat, (∃ k, next_power_of_two n = 2 ^ k) ∧ n ≤ next_power_of_two n ∧
      ∀ k, n ≤ 2 ^ k → next_power_of_two n ≤ 2 ^ k :=
  ⟨rfl, rfl, rfl, rfl, rfl, rfl, next_power_of_two_spec⟩

/-- Witness for C8: minimality instantiated at `n = 5`, `k = 3`. -/
theorem next_power_of_two_correct_witness : next_power_of_two 5 ≤ 2 ^ 3 :=
  (next_power_of_two_correct.2.2.2.2.2.2 5).2.2 3 (by decide)

/-- C9: `is_valid_fwht_length n` is true exactly when `n` is 0 or a power of
two, and takes the spec's sample values. -/
theorem is_valid_length_correct :
    (∀ n : Nat, is_valid_fwht_length n = true ↔ n = 0 ∨ ∃ k, n = 2 ^ k) ∧
    is_valid_fwht_length 0 = true ∧ is_valid_fwht_length 1 = true ∧
    is_valid_fwht_length 2 = true ∧ is_valid_fwht_length 4 = true ∧
    is_valid_fwht_length 8 = true ∧ is_valid_fwht_length 16 = true ∧
    is_valid_fwht_length 3 = false ∧ is_valid_fwht_length 5 = false ∧
    is_valid_fwht_length 6 = false ∧ is_valid_fwht_length 7 = false :=
  ⟨is_valid_fwht_length_iff, rfl, rfl, rfl, rfl, rfl, rfl, rfl, rfl, rfl, rfl⟩

/-- Witness for C9: the characterisation applied at `n = 8`. -/
theorem is_valid_length_correct_witness : is_valid_fwht_length 8 = true :=
  (is_valid_length_correct.1 8).mpr (Or.inr ⟨3, rfl⟩)

/-- C10: the length returned by `next_power_of_two` always passes the
validator, and `fwht_slice` succeeds on every sequence padded to that
length. -/
theorem next_power_of_two_always_valid (α : Type) [Add α] [Sub α] (n : Nat) :
    is_valid_fwht_length (next_power_of_two n) = true ∧
    ∀ d : List α, d.length = next_power_of_two n →
      (fwht_slice d).1 = Except.ok () := by
  obtain ⟨⟨k, hk⟩, -, -⟩ := next_power_of_two_spec n
  constructor
  · rw [is_valid_fwht_length_iff]
    exact Or.inr ⟨k, hk⟩
  · intro d hd
    rw [fwht_slice_pow k d (by rw [hd, hk])]

/-- Witness for C10 at `n = 3`, padding target 4, input `[5, 6, 7, 8]`. -/
theorem next_power_of_two_always_valid_witness :
    (fwht_slice ([5, 6, 7, 8] : List Int)).1 = Except.ok () :=
  (next_power_of_two_always_valid Int 3).2 [5, 6, 7, 8] rfl

/-! ### Loop plumbing: lengths and locality of the butterfly loops -/

theorem bfly_length {α : Type _} [Add α] [Sub α] (d : List α) (j h : Nat) :
    (bfly d j h).length = d.length := by
  cases hj : d[j]? <;> cases hk : d[j + h]? <;> simp [bfly, hj, hk]

theorem innerLoop_length {α : Type _} [Add α] [Sub α] (d : List α) (i h : Nat) :
    (innerLoop d i h).length = d.length := by
  unfold innerLoop
  generalize List.range h = l
  induction l generalizing d with
  | nil => rfl
  | cons t l ih =>
    simp only [List.foldl_cons]
    rw [ih (bfly d (i + t) h), bfly_length]

theorem midLoop_length {α : Type _} [Add α] [Sub α] (d : List α) (n h : Nat) :
    (midLoop d n h).length = d.length := by
  unfold midLoop
  generalize stepByIdxs n (h * 2) = l
  induction l generalizing d with
  | nil => rfl
  | cons i l ih =>
    simp only [List.foldl_cons]
    rw [ih (innerLoop d i h), innerLoop_length]

theorem bfly_of_some {α : Type _} [Add α] [Sub α] {d : List α} {j h : Nat}
    {x y : α} (hx : d[j]? = some x) (hy : d[j + h]? = some y) :
    bfly d j h = (d.set j (x + y)).set (j + h) (x - y) := by
  unfold bfly
  rw [hx, hy]

theorem bfly_of_fst_none {α : Type _} [Add α] [Sub α] {d : List α} {j h : Nat}
    (hx : d[j]? = none) : bfly d j h = d := by
  unfold bfly
  rw [hx]

theorem bfly_of_snd_none {α : Type _} [Add α] [Sub α] {d : List α} {j h : Nat}
    (hy : d[j + h]? = none) : bfly d j h = d := by
  unfold bfly
  rw [hy]
  cases d[j]? <;> rfl

theorem bfly_append_left {α : Type _} [Add α] [Sub α] (p e : List α) (j h : Nat) :
    bfly (p ++ e) (p.length + j) h = p ++ bfly e j h := by
  have h1 : (p ++ e)[p.length + j]? = e[j]? := by
    rw [List.getElem?_append_right (by omega)]
    congr 1
    omega
  have h2 : (p ++ e)[p.length + j + h]? = e[j + h]? := by
    rw [List.getElem?_append_right (by omega)]
    congr 1
    omega
  cases hx : e[j]? with
  | none => rw [bfly_of_fst_none (h1.trans hx), bfly_of_fst_none hx]
  | some x =>
    cases hy : e[j + h]? with
    | none => rw [bfly_of_snd_none (h2.trans hy), bfly_of_snd_none hy]
    | some y =>
      have e1 : p.length + j - p.length = j := by omega
      have e2 : p.length + j + h - p.length = j + h := by omega
      rw [bfly_of_some (h1.trans hx) (h2.trans hy), bfly_of_some hx hy,
        List.set_append_right _ _ (by omega : p.length ≤ p.length + j), e1,
        List.set_append_right _ _ (by omega : p.length ≤ p.length + j + h), e2]

theorem bfly_append_right {α : Type _} [Add α] [Sub α] (b r : List α) (j h : Nat)
    (hb : j + h < b.length) :
    bfly (b ++ r) j h = bfly b j h ++ r := by
  have h1 : (b ++ r)[j]? = b[j]? := List.getElem?_append_left (by omega)
  have h2 : (b ++ r)[j + h]? = b[j + h]? := List.getElem?_append_left hb
  cases hx : b[j]? with
  | none => rw [bfly_of_fst_none (h1.trans hx), bfly_of_fst_none hx]
  | some x =>
    cases hy : b[j + h]? with
    | none => rw [bfly_of_snd_none (h2.trans hy), bfly_of_snd_none hy]
    | some y =>
      rw [bfly_of_some (h1.trans hx) (h2.trans hy), bfly_of_some hx hy,
        List.set_append_left _ _ (by omega : j < b.length),
        List.set_append_left _ _ (by simp only [List.length_set]; omega)]

theorem innerLoop_append_left {α : Type _} [Add α] [Sub α] (p e : List α)
    (i h : Nat) :
    innerLoop (p ++ e) (p.length + i) h = p ++ innerLoop e i h := by
  unfold innerLoop
  generalize List.range h = l
  induction l generalizing e with
  | nil => rfl
  | cons t l ih =>
    simp only [List.foldl_cons]
    have ha : p.length + i + t = p.length + (i + t) := by omega
    rw [ha, bfly_append_left p e (i + t) h, ih (bfly e (i + t) h)]

theorem innerLoop_append_right {α : Type _} [Add α] [Sub α] (b r : List α)
    (h : Nat) (hb : b.length = h * 2) :
    innerLoop (b ++ r) 0 h = innerLoop b 0 h ++ r := by
  unfold innerLoop
  have hmem : ∀ t ∈ List.range h, t < h := fun t ht => List.mem_range.mp ht
  generalize hg : List.range h = l at hmem
  clear hg
  induction l generalizing b with
  | nil => rfl
  | cons t l ih =>
    simp only [List.foldl_cons]
    have ht : t < h := hmem t (by simp)
    rw [bfly_append_right b r (0 + t) h (by omega)]
    exact ih (bfly b (0 + t) h) (by rw [bfly_length]; exact hb)
      (fun s hs => hmem s (by simp [hs]))

theorem zipWith_getElem?_some {α β γ : Type _} {f : α → β → γ} {as : List α}
    {bs : List β} {i : Nat} {a : α} {b : β} (ha : as[i]? = some a)
    (hb : bs[i]? = some b) : (List.zipWith f as bs)[i]? = some (f a b) := by
  rw [List.getElem?_zipWith, ha, hb]

theorem getElem?_append_cons_of_length {γ : Type _} {xs ys : List γ} {a : γ}
    {i : Nat} (hi : xs.length = i) : (xs ++ a :: ys)[i]? = some a := by
  subst hi
  rw [List.getElem?_append_right (Nat.le_refl _)]
  simp

theorem innerLoop_zero_idx {α : Type _} [Add α] [Sub α] (b : List α) (h : Nat) :
    innerLoop b 0 h = (List.range h).foldl (fun acc t => bfly acc t h) b := by
  unfold innerLoop
  congr 1
  funext acc t
  rw [Nat.zero_add]

theorem bfly_fold_inv {α : Type _} [Add α] [Sub α] (h : Nat) (b : List α)
    (hb : b.length = h * 2) :
    ∀ k, k ≤ h →
      (List.range k).foldl (fun acc t => bfly acc t h) b =
        ((List.zipWith (· + ·) (b.take h) (b.drop h)).take k ++ (b.take h).drop k) ++
          ((List.zipWith (· - ·) (b.take h) (b.drop h)).take k ++ (b.drop h).drop k) := by
  intro k
  induction k with
  | zero =>
    intro _
    simp
  | succ k ih =>
    intro hk1
    have hk : k < h := by omega
    rw [List.range_succ, List.foldl_append, ih (by omega)]
    simp only [List.foldl_cons, List.foldl_nil]
    have hul : (b.take h).length = h := by rw [List.length_take]; omega
    have hvl : (b.drop h).length = h := by rw [List.length_drop]; omega
    set u := b.take h with hu2
    set v := b.drop h with hv2
    set P := List.zipWith (· + ·) u v with hP
    set M := List.zipWith (· - ·) u v with hM
    have hPl : P.length = h := by rw [hP, List.length_zipWith, hul, hvl]; omega
    have hMl : M.length = h := by rw [hM, List.length_zipWith, hul, hvl]; omega
    have hku : k < u.length := by omega
    have hkv : k < v.length := by omega
    have hdu : u.drop k = u[k] :: u.drop (k + 1) := List.drop_eq_getElem_cons hku
    have hdv : v.drop k = v[k] :: v.drop (k + 1) := List.drop_eq_getElem_cons hkv
    have hPtl : (P.take k).length = k := by rw [List.length_take]; omega
    have hMtl : (M.take k).length = k := by rw [List.length_take]; omega
    rw [hdu, hdv]
    have hAl : (P.take k ++ u[k] :: u.drop (k + 1)).length = h := by
      rw [List.length_append, hPtl, List.length_cons, List.length_drop]
      omega
    have hx : ((P.take k ++ u[k] :: u.drop (k + 1)) ++
        (M.take k ++ v[k] :: v.drop (k + 1)))[k]? = some u[k] := by
      rw [List.getElem?_append_left (by omega)]
      exact getElem?_append_cons_of_length hPtl
    have hy : ((P.take k ++ u[k] :: u.drop (k + 1)) ++
        (M.take k ++ v[k] :: v.drop (k + 1)))[k + h]? = some v[k] := by
      rw [List.getElem?_append_right (by omega)]
      have hix : k + h - (P.take k ++ u[k] :: u.drop (k + 1)).length = k := by omega
      rw [hix]
      exact getElem?_append_cons_of_length hMtl
    rw [bfly_of_some hx hy]
    rw [List.set_append_left _ _ (by omega : k < (P.take k ++ u[k] :: u.drop (k + 1)).length)]
    rw [List.set_append_right _ _ (by omega : (P.take k).length ≤ k)]
    have hix0 : k - (P.take k).length = 0 := by omega
    rw [hix0, List.set_cons_zero]
    have hAl2 : (P.take k ++ (u[k] + v[k]) :: u.drop (k + 1)).length = h := by
      rw [List.length_append, hPtl, List.length_cons, List.length_drop]
      omega
    rw [List.set_append_right _ _
      (by omega : (P.take k ++ (u[k] + v[k]) :: u.drop (k + 1)).length ≤ k + h)]
    have hix1 : k + h - (P.take k ++ (u[k] + v[k]) :: u.drop (k + 1)).length = k := by
      omega
    rw [hix1]
    rw [List.set_append_right _ _ (by omega : (M.take k).length ≤ k)]
    have hix2 : k - (M.take k).length = 0 := by omega
    rw [hix2, List.set_cons_zero]
    have hPk : P[k]? = some (u[k] + v[k]) := by
      rw [hP]
      exact zipWith_getElem?_some (List.getElem?_eq_getElem hku)
        (List.getElem?_eq_getElem hkv)
    have hMk : M[k]? = some (u[k] - v[k]) := by
      rw [hM]
      exact zipWith_getElem?_some (List.getElem?_eq_getElem hku)
        (List.getElem?_eq_getElem hkv)
    have htP : P.take (k + 1) = P.take k ++ [u[k] + v[k]] := by
      rw [List.take_succ, hPk]
      rfl
    have htM : M.take (k + 1) = M.take k ++ [u[k] - v[k]] := by
      rw [List.take_succ, hMk]
      rfl
    rw [htP, htM]
    simp

theorem innerLoop_block {α : Type _} [Add α] [Sub α] (h : Nat) (b : List α)
    (hb : b.length = h * 2) :
    innerLoop b 0 h =
      List.zipWith (· + ·) (b.take h) (b.drop h) ++
        List.zipWith (· - ·) (b.take h) (b.drop h) := by
  rw [innerLoop_zero_idx, bfly_fold_inv h b hb h (Nat.le_refl h)]
  have hul : (b.take h).length = h := by rw [List.length_take]; omega
  have hvl : (b.drop h).length = h := by rw [List.length_drop]; omega
  have hPl : (List.zipWith (· + ·) (b.take h) (b.drop h)).length = h := by
    rw [List.length_zipWith]
    omega
  have hMl : (List.zipWith (· - ·) (b.take h) (b.drop h)).length = h := by
    rw [List.length_zipWith]
    omega
  rw [List.take_of_length_le (Nat.le_of_eq hPl), List.take_of_length_le (Nat.le_of_eq hMl),
    List.drop_of_length_le (Nat.le_of_eq hul), List.drop_of_length_le (Nat.le_of_eq hvl)]
  simp

theorem foldl_inner_shift {α : Type _} [Add α] [Sub α] (h : Nat) :
    ∀ (idxs : List Nat) (p e : List α),
      (idxs.map (fun i => p.length + i)).foldl (fun acc i => innerLoop acc i h)
          (p ++ e) =
        p ++ idxs.foldl (fun acc i => innerLoop acc i h) e := by
  intro idxs
  induction idxs with
  | nil => intro p e; rfl
  | cons i idxs ih =>
    intro p e
    simp only [List.map_cons, List.foldl_cons]
    rw [innerLoop_append_left p e i h, ih p (innerLoop e i h)]

theorem stepByIdxs_exact (c step : Nat) (hstep : 0 < step) :
    stepByIdxs (c * step) step = (List.range c).map (fun k => k * step) := by
  unfold stepByIdxs
  have h2 : c * step + step - 1 = (step - 1) + step * c := by
    rw [Nat.mul_comm step c]
    omega
  rw [h2, Nat.add_mul_div_left _ _ hstep, Nat.div_eq_of_lt (by omega), Nat.zero_add]

theorem foldl_inner_blocks {α : Type _} [Add α] [Sub α] (h : Nat) (hh : 0 < h) :
    ∀ (c : Nat) (d : List α), d.length = c * (h * 2) →
      ((List.range c).map (fun k => k * (h * 2))).foldl
          (fun acc i => innerLoop acc i h) d =
        blockPass h d := by
  intro c
  induction c with
  | zero =>
    intro d hd
    have hnil : d = [] := List.length_eq_zero.mp (by simpa using hd)
    subst hnil
    rw [blockPass]
    simp
  | succ c ih =>
    intro d hd
    have hd' : d.length = c * (h * 2) + h * 2 := by rw [hd, Nat.succ_mul]
    have hbl : (d.take (h * 2)).length = h * 2 := by
      rw [List.length_take]
      omega
    rw [List.range_succ_eq_map]
    simp only [List.map_cons, List.map_map, List.foldl_cons, Nat.zero_mul]
    conv_lhs => rw [(List.take_append_drop (h * 2) d).symm]
    rw [innerLoop_append_right (d.take (h * 2)) (d.drop (h * 2)) h hbl]
    rw [innerLoop_block h (d.take (h * 2)) hbl]
    have htt : (d.take (h * 2)).take h = d.take h := by
      rw [List.take_take]
      congr 1
      omega
    have htd : (d.take (h * 2)).drop h = (d.drop h).take h := by
      rw [List.drop_take]
      congr 1
      omega
    rw [htt, htd]
    have hBl :
        (List.zipWith (· + ·) (d.take h) ((d.drop h).take h) ++
          List.zipWith (· - ·) (d.take h) ((d.drop h).take h)).length = h * 2 := by
      simp only [List.length_append, List.length_zipWith, List.length_take,
        List.length_drop]
      omega
    have hfun : ((fun k => k * (h * 2)) ∘ Nat.succ) = fun t =>
        (List.zipWith (· + ·) (d.take h) ((d.drop h).take h) ++
          List.zipWith (· - ·) (d.take h) ((d.drop h).take h)).length + t * (h * 2) := by
      funext t
      rw [hBl]
      show (t + 1) * (h * 2) = h * 2 + t * (h * 2)
      ring
    rw [hfun]
    have hmapmap :
        (List.range c).map (fun t =>
          (List.zipWith (· + ·) (d.take h) ((d.drop h).take h) ++
            List.zipWith (· - ·) (d.take h) ((d.drop h).take h)).length + t * (h * 2)) =
        ((List.range c).map (fun k => k * (h * 2))).map (fun i =>
          (List.zipWith (· + ·) (d.take h) ((d.drop h).take h) ++
            List.zipWith (· - ·) (d.take h) ((d.drop h).take h)).length + i) := by
      rw [List.map_map]
      rfl
    rw [hmapmap, foldl_inner_shift h]
    have hrest : (d.drop (h * 2)).length = c * (h * 2) := by
      rw [List.length_drop]
      omega
    rw [ih (d.drop (h * 2)) hrest]
    conv_rhs => rw [blockPass]
    rw [if_neg (by omega : ¬(d.length < h * 2 ∨ h = 0))]
    rw [List.append_assoc]

theorem midLoop_eq_blockPass {α : Type _} [Add α] [Sub α] (h c : Nat) (hh : 0 < h)
    (d : List α) (hd : d.length = c * (h * 2)) :
    midLoop d d.length h = blockPass h d := by
  unfold midLoop
  rw [hd, stepByIdxs_exact c (h * 2) (by omega)]
  exact foldl_inner_blocks h hh c d hd

theorem blockPass_nil {α : Type _} [Add α] [Sub α] (h : Nat) :
    blockPass h ([] : List α) = [] := by
  rw [blockPass, if_pos (by simp only [List.length_nil]; omega)]

theorem blockPass_length {α : Type _} [Add α] [Sub α] (h : Nat) (hh : 0 < h) :
    ∀ c (d : List α), d.length = c * (h * 2) → (blockPass h d).length = d.length := by
  intro c
  induction c with
  | zero =>
    intro d hd
    have hnil : d = [] := List.length_eq_zero.mp (by simpa using hd)
    subst hnil
    rw [blockPass_nil]
  | succ c ih =>
    intro d hd
    have hd' : d.length = c * (h * 2) + h * 2 := by rw [hd, Nat.succ_mul]
    rw [blockPass, if_neg (by omega : ¬(d.length < h * 2 ∨ h = 0))]
    have hrest : (d.drop (h * 2)).length = c * (h * 2) := by
      rw [List.length_drop]
      omega
    simp only [List.length_append, List.length_zipWith, List.length_take,
      List.length_drop, ih (d.drop (h * 2)) hrest, hrest]
    omega

theorem blockPass_append {α : Type _} [Add α] [Sub α] (h : Nat) (hh : 0 < h) :
    ∀ c (u v : List α), u.length = c * (h * 2) →
      blockPass h (u ++ v) = blockPass h u ++ blockPass h v := by
  intro c
  induction c with
  | zero =>
    intro u v hu
    have hnil : u = [] := List.length_eq_zero.mp (by simpa using hu)
    subst hnil
    rw [List.nil_append, blockPass_nil, List.nil_append]
  | succ c ih =>
    intro u v hu
    have hu' : u.length = c * (h * 2) + h * 2 := by rw [hu, Nat.succ_mul]
    have hluv : (u ++ v).length = u.length + v.length := List.length_append u v
    conv_lhs => rw [blockPass]
    rw [if_neg (by omega : ¬((u ++ v).length < h * 2 ∨ h = 0))]
    conv_rhs => rw [blockPass]
    rw [if_neg (by omega : ¬(u.length < h * 2 ∨ h = 0))]
    have h1 : (u ++ v).take h = u.take h := List.take_append_of_le_length (by omega)
    have h2 : (u ++ v).drop h = u.drop h ++ v := List.drop_append_of_le_length (by omega)
    have h3 : ((u ++ v).drop h).take h = (u.drop h).take h := by
      rw [h2]
      exact List.take_append_of_le_length (by rw [List.length_drop]; omega)
    have h4 : (u ++ v).drop (h * 2) = u.drop (h * 2) ++ v :=
      List.drop_append_of_le_length (by omega)
    rw [h1, h3, h4, ih (u.drop (h * 2)) v (by rw [List.length_drop]; omega)]
    simp [List.append_assoc]

theorem whtRec_length {α : Type _} [Add α] [Sub α] :
    ∀ m (d : List α), d.length = 2 ^ m → (whtRec m d).length = 2 ^ m := by
  intro m
  induction m with
  | zero =>
    intro d hd
    simpa [whtRec] using hd
  | succ m ih =>
    intro d hd
    have hp : (2 : Nat) ^ (m + 1) = 2 ^ m + 2 ^ m := by rw [pow_succ]; ring
    have ht : (d.take (2 ^ m)).length = 2 ^ m := by rw [List.length_take]; omega
    have hdr : (d.drop (2 ^ m)).length = 2 ^ m := by rw [List.length_drop]; omega
    simp only [whtRec]
    rw [List.length_append, List.length_zipWith, List.length_zipWith,
      ih _ ht, ih _ hdr]
    omega

theorem fwhtStages_succ {α : Type _} [Add α] [Sub α] (m : Nat) (d : List α) :
    fwhtStages (m + 1) d = blockPass (2 ^ m) (fwhtStages m d) := by
  unfold fwhtStages
  rw [List.range_succ, List.foldl_append]
  rfl

theorem fwhtStages_length_dvd {α : Type _} [Add α] [Sub α] :
    ∀ m c (d : List α), d.length = c * 2 ^ m → (fwhtStages m d).length = d.length := by
  intro m
  induction m with
  | zero => intro c d _; rfl
  | succ m ih =>
    intro c d hd
    rw [fwhtStages_succ]
    have h1 : d.length = (c * 2) * 2 ^ m := by rw [hd, pow_succ]; ring
    have hlen : (fwhtStages m d).length = d.length := ih (c * 2) d h1
    have hc2 : (fwhtStages m d).length = c * (2 ^ m * 2) := by
      rw [hlen, hd]
      ring
    rw [blockPass_length (2 ^ m) (by positivity) c (fwhtStages m d) hc2]
    exact hlen

theorem fwhtStages_append {α : Type _} [Add α] [Sub α] :
    ∀ m c (u v : List α), u.length = c * 2 ^ m →
      fwhtStages m (u ++ v) = fwhtStages m u ++ fwhtStages m v := by
  intro m
  induction m with
  | zero => intro c u v _; rfl
  | succ m ih =>
    intro c u v hu
    simp only [fwhtStages_succ]
    rw [ih (c * 2) u v (by rw [hu, pow_succ]; ring)]
    have hSu : (fwhtStages m u).length = u.length :=
      fwhtStages_length_dvd m (c * 2) u (by rw [hu, pow_succ]; ring)
    exact blockPass_append (2 ^ m) (by positivity) c (fwhtStages m u)
      (fwhtStages m v) (by rw [hSu, hu]; ring)

theorem fwhtStages_eq_whtRec {α : Type _} [Add α] [Sub α] :
    ∀ m (d : List α), d.length = 2 ^ m → fwhtStages m d = whtRec m d := by
  intro m
  induction m with
  | zero => intro d _; rfl
  | succ m ih =>
    intro d hd
    have hpos : 0 < (2 : Nat) ^ m := by positivity
    have hp : (2 : Nat) ^ (m + 1) = 2 ^ m + 2 ^ m := by rw [pow_succ]; ring
    have ht : (d.take (2 ^ m)).length = 2 ^ m := by rw [List.length_take]; omega
    have hdr : (d.drop (2 ^ m)).length = 2 ^ m := by rw [List.length_drop]; omega
    rw [fwhtStages_succ]
    conv_lhs => rw [(List.take_append_drop (2 ^ m) d).symm]
    rw [fwhtStages_append m 1 (d.take (2 ^ m)) (d.drop (2 ^ m)) (by rw [ht]; ring)]
    rw [ih (d.take (2 ^ m)) ht, ih (d.drop (2 ^ m)) hdr]
    have hA : (whtRec m (d.take (2 ^ m))).length = 2 ^ m := whtRec_length m _ ht
    have hB : (whtRec m (d.drop (2 ^ m))).length = 2 ^ m := whtRec_length m _ hdr
    have hABl : (whtRec m (d.take (2 ^ m)) ++ whtRec m (d.drop (2 ^ m))).length =
        2 ^ m * 2 := by
      rw [List.length_append, hA, hB]
      ring
    conv_lhs => rw [blockPass]
    rw [if_neg (by omega :
      ¬((whtRec m (d.take (2 ^ m)) ++ whtRec m (d.drop (2 ^ m))).length < 2 ^ m * 2 ∨
        (2 : Nat) ^ m = 0))]
    rw [List.take_left' hA, List.drop_left' hA,
      List.take_of_length_le (Nat.le_of_eq hB)]
    have hdrop2 : (whtRec m (d.take (2 ^ m)) ++ whtRec m (d.drop (2 ^ m))).drop
        (2 ^ m * 2) = [] :=
      List.drop_of_length_le (by omega)
    rw [hdrop2, blockPass_nil]
    simp only [whtRec, List.append_nil]

theorem whLoopAux_stages {α : Type _} [Add α] [Sub α] :
    ∀ (k fuel s : Nat) (d : List α), k ≤ fuel → d.length = 2 ^ (s + k) →
      whLoopAux fuel d (2 ^ (s + k)) (2 ^ s) =
        ((List.range k).map (fun t => s + t)).foldl
          (fun acc t => blockPass (2 ^ t) acc) d := by
  intro k
  induction k with
  | zero =>
    intro fuel s d _ _
    cases fuel with
    | zero => rfl
    | succ f =>
      simp only [whLoopAux, Nat.add_zero, Nat.lt_irrefl, if_false,
        List.range_zero, List.map_nil, List.foldl_nil]
  | succ k ih =>
    intro fuel s d hf hd
    obtain ⟨f, rfl⟩ : ∃ f, fuel = f + 1 := ⟨fuel - 1, by omega⟩
    have hlt : (2 : Nat) ^ s < 2 ^ (s + (k + 1)) :=
      Nat.pow_lt_pow_right (by omega) (by omega)
    simp only [whLoopAux]
    rw [if_pos hlt]
    have hc : d.length = 2 ^ k * (2 ^ s * 2) := by
      rw [hd, ← pow_succ, ← pow_add]
      congr 1
      omega
    have hmid : midLoop d (2 ^ (s + (k + 1))) (2 ^ s) = blockPass (2 ^ s) d := by
      have hm := midLoop_eq_blockPass (2 ^ s) (2 ^ k) (by positivity) d hc
      rw [hd] at hm
      exact hm
    rw [hmid]
    have h2s : (2 : Nat) ^ s * 2 = 2 ^ (s + 1) := by rw [pow_succ]
    rw [h2s]
    have hd2 : (blockPass (2 ^ s) d).length = 2 ^ ((s + 1) + k) := by
      rw [blockPass_length (2 ^ s) (by positivity) (2 ^ k) d hc, hd]
      congr 1
      omega
    have harg : s + (k + 1) = (s + 1) + k := by omega
    rw [harg, ih f (s + 1) (blockPass (2 ^ s) d) (by omega) hd2]
    rw [List.range_succ_eq_map]
    simp only [List.map_cons, List.map_map, List.foldl_cons, Nat.add_zero]
    have hfun : ((fun t => s + t) ∘ Nat.succ) = (fun t => (s + 1) + t) := by
      funext t
      show s + (t + 1) = (s + 1) + t
      omega
    rw [hfun]

theorem whLoop_eq_whtRec {α : Type _} [Add α] [Sub α] (m : Nat) (d : List α)
    (hd : d.length = 2 ^ m) (fuel : Nat) (hf : m ≤ fuel) :
    whLoopAux fuel d (2 ^ m) 1 = whtRec m d := by
  have h0 : d.length = 2 ^ (0 + m) := by
    rw [hd]
    congr 1
    omega
  have h1 : whLoopAux fuel d (2 ^ (0 + m)) (2 ^ 0) =
      ((List.range m).map (fun t => 0 + t)).foldl
        (fun acc t => blockPass (2 ^ t) acc) d :=
    whLoopAux_stages m fuel 0 d hf h0
  have h2 : (List.range m).map (fun t => 0 + t) = List.range m := by
    simp
  rw [h2] at h1
  have h3 : (2 : Nat) ^ (0 + m) = 2 ^ m := by congr 1; omega
  rw [h3] at h1
  have h4 : (2 : Nat) ^ 0 = 1 := rfl
  rw [h4] at h1
  rw [h1]
  exact fwhtStages_eq_whtRec m d hd

theorem fwht_slice_eq_whtRec {α : Type _} [Add α] [Sub α] (m : Nat) (d : List α)
    (hd : d.length = 2 ^ m) :
    fwht_slice d = (Except.ok (), whtRec m d) := by
  rw [fwht_slice_pow m d hd]
  rw [whLoop_eq_whtRec m d hd (2 ^ m) (Nat.le_of_lt (Nat.lt_two_pow m))]

/-! ### Algebra of the recursive transform -/

theorem zipWith_add_add_comm {α : Type _} [AddCommGroup α] :
    ∀ (A B C D : List α),
      List.zipWith (· + ·) (List.zipWith (· + ·) A B) (List.zipWith (· + ·) C D) =
        List.zipWith (· + ·) (List.zipWith (· + ·) A C) (List.zipWith (· + ·) B D) := by
  intro A
  induction A with
  | nil => intro B C D; simp
  | cons a A ih =>
    intro B C D
    cases B with
    | nil => simp
    | cons b B =>
      cases C with
      | nil => simp
      | cons c C =>
        cases D with
        | nil => simp
        | cons d D =>
          simp only [List.zipWith_cons_cons]
          rw [ih B C D]
          congr 1
          exact add_add_add_comm a b c d

theorem zipWith_sub_add_comm {α : Type _} [AddCommGroup α] :
    ∀ (A B C D : List α),
      List.zipWith (· - ·) (List.zipWith (· + ·) A B) (List.zipWith (· + ·) C D) =
        List.zipWith (· + ·) (List.zipWith (· - ·) A C) (List.zipWith (· - ·) B D) := by
  intro A
  induction A with
  | nil => intro B C D; simp
  | cons a A ih =>
    intro B C D
    cases B with
    | nil => simp
    | cons b B =>
      cases C with
      | nil => simp
      | cons c C =>
        cases D with
        | nil => simp
        | cons d D =>
          simp only [List.zipWith_cons_cons]
          rw [ih B C D]
          congr 1
          exact add_sub_add_comm a b c d

theorem zipWith_add_sub_comm {α : Type _} [AddCommGroup α] :
    ∀ (A B C D : List α),
      List.zipWith (· + ·) (List.zipWith (· - ·) A B) (List.zipWith (· - ·) C D) =
        List.zipWith (· - ·) (List.zipWith (· + ·) A C) (List.zipWith (· + ·) B D) := by
  intro A
  induction A with
  | nil => intro B C D; simp
  | cons a A ih =>
    intro B C D
    cases B with
    | nil => simp
    | cons b B =>
      cases C with
      | nil => simp
      | cons c C =>
        cases D with
        | nil => simp
        | cons d D =>
          simp only [List.zipWith_cons_cons]
          rw [ih B C D]
          congr 1
          exact sub_add_sub_comm a b c d

theorem zipWith_sub_sub_comm {α : Type _} [AddCommGroup α] :
    ∀ (A B C D : List α),
      List.zipWith (· - ·) (List.zipWith (· - ·) A B) (List.zipWith (· - ·) C D) =
        List.zipWith (· - ·) (List.zipWith (· - ·) A C) (List.zipWith (· - ·) B D) := by
  intro A
  induction A with
  | nil => intro B C D; simp
  | cons a A ih =>
    intro B C D
    cases B with
    | nil => simp
    | cons b B =>
      cases C with
      | nil => simp
      | cons c C =>
        cases D with
        | nil => simp
        | cons d D =>
          simp only [List.zipWith_cons_cons]
          rw [ih B C D]
          congr 1
          exact sub_sub_sub_comm a b c d

theorem whtRec_add {α : Type _} [AddCommGroup α] :
    ∀ m (a b : List α), a.length = 2 ^ m → b.length = 2 ^ m →
      whtRec m (List.zipWith (· + ·) a b) =
        List.zipWith (· + ·) (whtRec m a) (whtRec m b) := by
  intro m
  induction m with
  | zero => intro a b _ _; rfl
  | succ m ih =>
    intro a b ha hb
    have hp : (2 : Nat) ^ (m + 1) = 2 ^ m + 2 ^ m := by rw [pow_succ]; ring
    have hat : (a.take (2 ^ m)).length = 2 ^ m := by rw [List.length_take]; omega
    have had : (a.drop (2 ^ m)).length = 2 ^ m := by rw [List.length_drop]; omega
    have hbt : (b.take (2 ^ m)).length = 2 ^ m := by rw [List.length_take]; omega
    have hbd : (b.drop (2 ^ m)).length = 2 ^ m := by rw [List.length_drop]; omega
    simp only [whtRec]
    rw [List.take_zipWith, List.drop_zipWith]
    rw [ih (a.take (2 ^ m)) (b.take (2 ^ m)) hat hbt,
      ih (a.drop (2 ^ m)) (b.drop (2 ^ m)) had hbd]
    rw [List.zipWith_append _ _ _ _ _ (by
      rw [List.length_zipWith, List.length_zipWith, whtRec_length m _ hat,
        whtRec_length m _ had, whtRec_length m _ hbt, whtRec_length m _ hbd])]
    rw [zipWith_add_add_comm, zipWith_sub_add_comm]

theorem whtRec_sub {α : Type _} [AddCommGroup α] :
    ∀ m (a b : List α), a.length = 2 ^ m → b.length = 2 ^ m →
      whtRec m (List.zipWith (· - ·) a b) =
        List.zipWith (· - ·) (whtRec m a) (whtRec m b) := by
  intro m
  induction m with
  | zero => intro a b _ _; rfl
  | succ m ih =>
    intro a b ha hb
    have hp : (2 : Nat) ^ (m + 1) = 2 ^ m + 2 ^ m := by rw [pow_succ]; ring
    have hat : (a.take (2 ^ m)).length = 2 ^ m := by rw [List.length_take]; omega
    have had : (a.drop (2 ^ m)).length = 2 ^ m := by rw [List.length_drop]; omega
    have hbt : (b.take (2 ^ m)).length = 2 ^ m := by rw [List.length_take]; omega
    have hbd : (b.drop (2 ^ m)).length = 2 ^ m := by rw [List.length_drop]; omega
    simp only [whtRec]
    rw [List.take_zipWith, List.drop_zipWith]
    rw [ih (a.take (2 ^ m)) (b.take (2 ^ m)) hat hbt,
      ih (a.drop (2 ^ m)) (b.drop (2 ^ m)) had hbd]
    rw [List.zipWith_append _ _ _ _ _ (by
      rw [List.length_zipWith, List.length_zipWith, whtRec_length m _ hat,
        whtRec_length m _ had, whtRec_length m _ hbt, whtRec_length m _ hbd])]
    rw [zipWith_add_sub_comm, zipWith_sub_sub_comm]

theorem zipWith_bfly_fst {α : Type _} [AddCommGroup α] :
    ∀ (X Y : List α), Y.length = X.length →
      List.zipWith (· + ·) (List.zipWith (· + ·) X Y) (List.zipWith (· - ·) X Y) =
        X.map (fun x => x + x) := by
  intro X
  induction X with
  | nil => intro Y _; rfl
  | cons x X ih =>
    intro Y hY
    cases Y with
    | nil => simp at hY
    | cons y Y =>
      simp only [List.zipWith_cons_cons, List.map_cons]
      congr 1
      · abel
      · exact ih Y (by simpa using hY)

theorem zipWith_bfly_snd {α : Type _} [AddCommGroup α] :
    ∀ (X Y : List α), Y.length = X.length →
      List.zipWith (· - ·) (List.zipWith (· + ·) X Y) (List.zipWith (· - ·) X Y) =
        Y.map (fun y => y + y) := by
  intro X
  induction X with
  | nil =>
    intro Y hY
    have : Y = [] := List.length_eq_zero.mp (by simpa using hY)
    subst this
    rfl
  | cons x X ih =>
    intro Y hY
    cases Y with
    | nil => simp at hY
    | cons y Y =>
      simp only [List.zipWith_cons_cons, List.map_cons]
      congr 1
      · abel
      · exact ih Y (by simpa using hY)

theorem whtRec_double {α : Type _} [AddCommGroup α] :
    ∀ m (d : List α), d.length = 2 ^ m →
      whtRec m (whtRec m d) = d.map (fun x => (2 ^ m : Nat) • x) := by
  intro m
  induction m with
  | zero =>
    intro d _
    simp [whtRec, pow_zero, one_smul]
  | succ m ih =>
    intro d hd
    have hp : (2 : Nat) ^ (m + 1) = 2 ^ m + 2 ^ m := by rw [pow_succ]; ring
    have ht : (d.take (2 ^ m)).length = 2 ^ m := by rw [List.length_take]; omega
    have hdr : (d.drop (2 ^ m)).length = 2 ^ m := by rw [List.length_drop]; omega
    have hA : (whtRec m (d.take (2 ^ m))).length = 2 ^ m := whtRec_length m _ ht
    have hB : (whtRec m (d.drop (2 ^ m))).length = 2 ^ m := whtRec_length m _ hdr
    have hZp : (List.zipWith (· + ·) (whtRec m (d.take (2 ^ m)))
        (whtRec m (d.drop (2 ^ m)))).length = 2 ^ m := by
      rw [List.length_zipWith, hA, hB]
      omega
    have hZm : (List.zipWith (· - ·) (whtRec m (d.take (2 ^ m)))
        (whtRec m (d.drop (2 ^ m)))).length = 2 ^ m := by
      rw [List.length_zipWith, hA, hB]
      omega
    conv_lhs => rw [whtRec]
    simp only [whtRec]
    rw [List.take_left' hZp, List.drop_left' hZp]
    rw [whtRec_add m _ _ hA hB, whtRec_sub m _ _ hA hB]
    rw [ih (d.take (2 ^ m)) ht, ih (d.drop (2 ^ m)) hdr]
    rw [zipWith_bfly_fst _ _ (by
      rw [List.length_map, List.length_map, List.length_take, List.length_drop]
      omega)]
    rw [zipWith_bfly_snd _ _ (by
      rw [List.length_map, List.length_map, List.length_take, List.length_drop]
      omega)]
    rw [List.map_map, List.map_map]
    have hfun : ((fun x : α => x + x) ∘ fun x : α => (2 ^ m : Nat) • x) =
        fun x : α => (2 ^ (m + 1) : Nat) • x := by
      funext x
      show (2 ^ m : Nat) • x + (2 ^ m : Nat) • x = (2 ^ (m + 1) : Nat) • x
      rw [← add_nsmul, ← hp]
    rw [hfun]
    rw [← List.map_append, List.take_append_drop]

/-- C2: for every sequence whose length is 0 or a power of two, applying
`fwht_slice` twice with no intermediate rescaling succeeds and multiplies
every element by exactly the length `n` (the identity when `n = 1`), for any
additive commutative group of elements (exact associative/commutative
arithmetic, covering exact integers and wrapping fixed-width arithmetic). -/
theorem fwht_involution_scaled (α : Type) [AddCommGroup α] (d : List α)
    (h : d.length = 0 ∨ ∃ m, d.length = 2 ^ m) :
    ∃ d1, fwht_slice d = (Except.ok (), d1) ∧
      fwht_slice d1 = (Except.ok (), d.map (fun x => d.length • x)) := by
  rcases h with h0 | ⟨m, hm⟩
  · have hnil : d = [] := List.length_eq_zero.mp h0
    subst hnil
    exact ⟨[], rfl, rfl⟩
  · refine ⟨whtRec m d, fwht_slice_eq_whtRec m d hm, ?_⟩
    have hl : (whtRec m d).length = 2 ^ m := whtRec_length m d hm
    rw [fwht_slice_eq_whtRec m (whtRec m d) hl, whtRec_double m d hm, hm]

/-- Witness for C2 at the concrete input `[1, 2, 3, 4]` over `ℤ`. -/
theorem fwht_involution_scaled_witness :
    ∃ d1, fwht_slice ([1, 2, 3, 4] : List Int) = (Except.ok (), d1) ∧
      fwht_slice d1 = (Except.ok (),
        ([1, 2, 3, 4] : List Int).map
          (fun x => ([1, 2, 3, 4] : List Int).length • x)) :=
  fwht_involution_scaled Int [1, 2, 3, 4] (Or.inr ⟨2, rfl⟩)

/-! ### Bitwise helpers for the Hadamard coefficient formula -/

theorem land_comm_nat (a b : Nat) : a &&& b = b &&& a := by
  apply Nat.eq_of_testBit_eq
  intro j
  rw [Nat.testBit_and, Nat.testBit_and, Bool.and_comm]

theorem land_lt_two : ∀ x y : Nat, x < 2 → y < 2 → x &&& y < 2 := by
  intro x y hx hy
  interval_cases x <;> interval_cases y <;> decide

theorem land_bit_decomp (a b x y : Nat) (hx : x < 2) (hy : y < 2) :
    (2 * a + x) &&& (2 * b + y) = 2 * (a &&& b) + (x &&& y) := by
  apply Nat.eq_of_testBit_eq
  intro j
  cases j with
  | zero =>
    rw [Nat.testBit_and]
    simp only [Nat.testBit_zero]
    have h1 : (2 * a + x) % 2 = x := by omega
    have h2 : (2 * b + y) % 2 = y := by omega
    have h3 : (2 * (a &&& b) + (x &&& y)) % 2 = x &&& y := by
      have hxy : x &&& y < 2 := land_lt_two x y hx hy
      omega
    rw [h1, h2, h3]
    interval_cases x <;> interval_cases y <;> decide
  | succ j =>
    rw [Nat.testBit_and, Nat.testBit_add_one, Nat.testBit_add_one,
      Nat.testBit_add_one]
    have h1 : (2 * a + x) / 2 = a := by omega
    have h2 : (2 * b + y) / 2 = b := by omega
    have h3 : (2 * (a &&& b) + (x &&& y)) / 2 = a &&& b := by
      have hxy : x &&& y < 2 := land_lt_two x y hx hy
      omega
    rw [h1, h2, h3, Nat.testBit_and]

theorem land_lt_two_pow : ∀ m a b : Nat, a < 2 ^ m → b < 2 ^ m →
    a &&& b < 2 ^ m := by
  intro m
  induction m with
  | zero =>
    intro a b ha hb
    rw [pow_zero] at ha hb ⊢
    have ha0 : a = 0 := by omega
    have hb0 : b = 0 := by omega
    subst ha0
    subst hb0
    decide
  | succ m ih =>
    intro a b ha hb
    have hp : (2 : Nat) ^ (m + 1) = 2 * 2 ^ m := by rw [pow_succ]; ring
    have key : a &&& b = 2 * ((a / 2) &&& (b / 2)) + ((a % 2) &&& (b % 2)) := by
      conv_lhs => rw [show a = 2 * (a / 2) + a % 2 from by omega,
        show b = 2 * (b / 2) + b % 2 from by omega]
      exact land_bit_decomp (a / 2) (b / 2) (a % 2) (b % 2) (by omega) (by omega)
    have h1 : (a / 2) &&& (b / 2) < 2 ^ m := ih _ _ (by omega) (by omega)
    have h2 : (a % 2) &&& (b % 2) < 2 := land_lt_two _ _ (by omega) (by omega)
    omega

theorem land_add_pow_left : ∀ m a b : Nat, a < 2 ^ m → b < 2 ^ m →
    (a + 2 ^ m) &&& b = a &&& b := by
  intro m
  induction m with
  | zero =>
    intro a b ha hb
    rw [pow_zero] at ha hb ⊢
    have ha0 : a = 0 := by omega
    have hb0 : b = 0 := by omega
    subst ha0
    subst hb0
    decide
  | succ m ih =>
    intro a b ha hb
    have hp : (2 : Nat) ^ (m + 1) = 2 * 2 ^ m := by rw [pow_succ]; ring
    have key1 : a + 2 ^ (m + 1) = 2 * (a / 2 + 2 ^ m) + a % 2 := by omega
    have hb2 : b = 2 * (b / 2) + b % 2 := by omega
    calc (a + 2 ^ (m + 1)) &&& b
        = (2 * (a / 2 + 2 ^ m) + a % 2) &&& (2 * (b / 2) + b % 2) := by
          rw [← key1, ← hb2]
      _ = 2 * ((a / 2 + 2 ^ m) &&& (b / 2)) + ((a % 2) &&& (b % 2)) :=
          land_bit_decomp _ _ _ _ (by omega) (by omega)
      _ = 2 * ((a / 2) &&& (b / 2)) + ((a % 2) &&& (b % 2)) := by
          rw [ih (a / 2) (b / 2) (by omega) (by omega)]
      _ = a &&& b := by
          conv_rhs => rw [show a = 2 * (a / 2) + a % 2 from by omega, hb2]
          rw [land_bit_decomp _ _ _ _ (by omega) (by omega)]

theorem land_add_pow_both : ∀ m a b : Nat, a < 2 ^ m → b < 2 ^ m →
    (a + 2 ^ m) &&& (b + 2 ^ m) = (a &&& b) + 2 ^ m := by
  intro m
  induction m with
  | zero =>
    intro a b ha hb
    rw [pow_zero] at ha hb ⊢
    have ha0 : a = 0 := by omega
    have hb0 : b = 0 := by omega
    subst ha0
    subst hb0
    decide
  | succ m ih =>
    intro a b ha hb
    have hp : (2 : Nat) ^ (m + 1) = 2 * 2 ^ m := by rw [pow_succ]; ring
    have key1 : a + 2 ^ (m + 1) = 2 * (a / 2 + 2 ^ m) + a % 2 := by omega
    have key2 : b + 2 ^ (m + 1) = 2 * (b / 2 + 2 ^ m) + b % 2 := by omega
    have hmod : (a % 2) &&& (b % 2) < 2 := land_lt_two _ _ (by omega) (by omega)
    calc (a + 2 ^ (m + 1)) &&& (b + 2 ^ (m + 1))
        = (2 * (a / 2 + 2 ^ m) + a % 2) &&& (2 * (b / 2 + 2 ^ m) + b % 2) := by
          rw [← key1, ← key2]
      _ = 2 * ((a / 2 + 2 ^ m) &&& (b / 2 + 2 ^ m)) + ((a % 2) &&& (b % 2)) :=
          land_bit_decomp _ _ _ _ (by omega) (by omega)
      _ = 2 * (((a / 2) &&& (b / 2)) + 2 ^ m) + ((a % 2) &&& (b % 2)) := by
          rw [ih (a / 2) (b / 2) (by omega) (by omega)]
      _ = (2 * ((a / 2) &&& (b / 2)) + ((a % 2) &&& (b % 2))) + 2 ^ (m + 1) := by
          omega
      _ = (a &&& b) + 2 ^ (m + 1) := by
          conv_rhs => rw [show a = 2 * (a / 2) + a % 2 from by omega,
            show b = 2 * (b / 2) + b % 2 from by omega]
          rw [land_bit_decomp _ _ _ _ (by omega) (by omega)]

theorem popcount_add_two_pow : ∀ m x : Nat, x < 2 ^ m →
    popcount (x + 2 ^ m) = popcount x + 1 := by
  intro m
  induction m with
  | zero =>
    intro x hx
    rw [pow_zero] at hx ⊢
    have hx0 : x = 0 := by omega
    subst hx0
    decide
  | succ m ih =>
    intro x hx
    have hp : (2 : Nat) ^ (m + 1) = 2 * 2 ^ m := by rw [pow_succ]; ring
    have hpos : 0 < (2 : Nat) ^ (m + 1) := by positivity
    rw [popcount_rec (by omega : x + 2 ^ (m + 1) ≠ 0)]
    have h1 : (x + 2 ^ (m + 1)) % 2 = x % 2 := by omega
    have h2 : (x + 2 ^ (m + 1)) / 2 = x / 2 + 2 ^ m := by omega
    rw [h1, h2, ih (x / 2) (by omega)]
    rcases Nat.eq_zero_or_pos x with h0 | hpos2
    · subst h0
      decide
    · rw [popcount_rec (by omega : x ≠ 0)]
      omega

/-! ### Element access helpers and the coefficient formula -/

theorem getD_append_left_len {α : Type _} {xs ys : List α} {i : Nat} (z : α)
    (h : i < xs.length) : (xs ++ ys).getD i z = xs.getD i z := by
  rw [List.getD_eq_getElem?_getD, List.getD_eq_getElem?_getD,
    List.getElem?_append_left h]

theorem getD_append_right_len {α : Type _} {xs ys : List α} {i : Nat} (z : α)
    (h : xs.length ≤ i) : (xs ++ ys).getD i z = ys.getD (i - xs.length) z := by
  rw [List.getD_eq_getElem?_getD, List.getD_eq_getElem?_getD,
    List.getElem?_append_right h]

theorem getD_take_of_lt {α : Type _} {l : List α} {n i : Nat} (z : α) (h : i < n) :
    (l.take n).getD i z = l.getD i z := by
  rw [List.getD_eq_getElem?_getD, List.getD_eq_getElem?_getD,
    List.getElem?_take_of_lt h]

theorem getD_drop_idx {α : Type _} {l : List α} {n i : Nat} (z : α) :
    (l.drop n).getD i z = l.getD (n + i) z := by
  rw [List.getD_eq_getElem?_getD, List.getD_eq_getElem?_getD, List.getElem?_drop]

theorem getD_zipWith {α : Type _} {f : α → α → α} {A B : List α} {k : Nat}
    (z : α) (hA : k < A.length) (hB : k < B.length) :
    (List.zipWith f A B).getD k z = f (A.getD k z) (B.getD k z) := by
  rw [List.getD_eq_getElem?_getD,
    zipWith_getElem?_some (List.getElem?_eq_getElem hA)
      (List.getElem?_eq_getElem hB)]
  rw [List.getD_eq_getElem?_getD, List.getD_eq_getElem?_getD,
    List.getElem?_eq_getElem hA, List.getElem?_eq_getElem hB]
  rfl

theorem whtRec_coeff {α : Type _} [AddCommGroup α] :
    ∀ m (d : List α), d.length = 2 ^ m → ∀ k, k < 2 ^ m →
      (whtRec m d).getD k 0 =
        ∑ i ∈ Finset.range (2 ^ m),
          ((-1 : ℤ) ^ popcount (i &&& k)) • d.getD i 0 := by
  intro m
  induction m with
  | zero =>
    intro d hd k hk
    rw [pow_zero] at hk
    have hk0 : k = 0 := by omega
    subst hk0
    show d.getD 0 0 = _
    rw [pow_zero, Finset.sum_range_one]
    have h00 : (0 : Nat) &&& 0 = 0 := rfl
    rw [h00]
    have hpc : popcount 0 = 0 := rfl
    rw [hpc, pow_zero, one_smul]
  | succ m ih =>
    intro d hd k hk
    have hpos : 0 < (2 : Nat) ^ m := by positivity
    have hp : (2 : Nat) ^ (m + 1) = 2 ^ m + 2 ^ m := by rw [pow_succ]; ring
    have ht : (d.take (2 ^ m)).length = 2 ^ m := by rw [List.length_take]; omega
    have hdr : (d.drop (2 ^ m)).length = 2 ^ m := by rw [List.length_drop]; omega
    have hA : (whtRec m (d.take (2 ^ m))).length = 2 ^ m := whtRec_length m _ ht
    have hB : (whtRec m (d.drop (2 ^ m))).length = 2 ^ m := whtRec_length m _ hdr
    have hZp : (List.zipWith (· + ·) (whtRec m (d.take (2 ^ m)))
        (whtRec m (d.drop (2 ^ m)))).length = 2 ^ m := by
      rw [List.length_zipWith, hA, hB]
      omega
    simp only [whtRec]
    rw [hp, Finset.sum_range_add]
    rcases Nat.lt_or_ge k (2 ^ m) with hk1 | hk1
    · rw [getD_append_left_len 0 (by omega)]
      rw [getD_zipWith 0 (by omega) (by omega)]
      rw [ih (d.take (2 ^ m)) ht k hk1, ih (d.drop (2 ^ m)) hdr k hk1]
      congr 1
      · apply Finset.sum_congr rfl
        intro i hi
        have hi2 : i < 2 ^ m := Finset.mem_range.mp hi
        rw [getD_take_of_lt 0 hi2]
      · apply Finset.sum_congr rfl
        intro i hi
        have hi2 : i < 2 ^ m := Finset.mem_range.mp hi
        have hsign : (2 ^ m + i) &&& k = i &&& k := by
          rw [Nat.add_comm]
          exact land_add_pow_left m i k hi2 hk1
        rw [hsign, getD_drop_idx 0]
    · obtain ⟨q, rfl⟩ : ∃ q, k = 2 ^ m + q := ⟨k - 2 ^ m, by omega⟩
      have hq : q < 2 ^ m := by omega
      rw [getD_append_right_len 0 (by omega)]
      have hidx : 2 ^ m + q - (List.zipWith (· + ·) (whtRec m (d.take (2 ^ m)))
          (whtRec m (d.drop (2 ^ m)))).length = q := by omega
      rw [hidx]
      rw [getD_zipWith 0 (by omega) (by omega)]
      rw [ih (d.take (2 ^ m)) ht q hq, ih (d.drop (2 ^ m)) hdr q hq]
      rw [sub_eq_add_neg, ← Finset.sum_neg_distrib]
      congr 1
      · apply Finset.sum_congr rfl
        intro i hi
        have hi2 : i < 2 ^ m := Finset.mem_range.mp hi
        have hsign : i &&& (2 ^ m + q) = i &&& q := by
          rw [land_comm_nat, Nat.add_comm, land_add_pow_left m q i hq hi2,
            land_comm_nat]
        rw [hsign, getD_take_of_lt 0 hi2]
      · apply Finset.sum_congr rfl
        intro i hi
        have hi2 : i < 2 ^ m := Finset.mem_range.mp hi
        have hsign : (2 ^ m + i) &&& (2 ^ m + q) = (i &&& q) + 2 ^ m := by
          rw [Nat.add_comm (2 ^ m) i, Nat.add_comm (2 ^ m) q]
          exact land_add_pow_both m i q hi2 hq
        rw [hsign, popcount_add_two_pow m _ (land_lt_two_pow m i q hi2 hq)]
        have hneg : ((-1 : ℤ)) ^ (popcount (i &&& q) + 1) =
            -((-1 : ℤ) ^ popcount (i &&& q)) := by
          rw [pow_succ]
          ring
        rw [hneg, neg_smul, getD_drop_idx 0]

/-- C1: for every sequence whose length `n` is a power of two, `fwht_slice`
succeeds and replaces the contents (same length) with the Walsh–Hadamard
coefficients of the input: entry `k` equals the sum over `i < n` of
`(-1) ^ popcount(i AND k)` times input entry `i`, under exact associative and
commutative element arithmetic (any additive commutative group). -/
theorem fwht_hadamard_coefficients (α : Type) [AddCommGroup α] (m : Nat)
    (d : List α) (hd : d.length = 2 ^ m) :
    (fwht_slice d).1 = Except.ok () ∧
    (fwht_slice d).2.length = d.length ∧
    ∀ k, k < d.length →
      (fwht_slice d).2.getD k 0 =
        ∑ i ∈ Finset.range d.length,
          ((-1 : ℤ) ^ popcount (i &&& k)) • d.getD i 0 := by
  rw [fwht_slice_eq_whtRec m d hd]
  refine ⟨rfl, ?_, ?_⟩
  · show (whtRec m d).length = d.length
    rw [whtRec_length m d hd, hd]
  · intro k hk
    show (whtRec m d).getD k 0 = _
    rw [hd] at hk
    rw [hd]
    exact whtRec_coeff m d hd k hk

/-- Witness for C1 at the concrete input `[1, 2, 3, 4]` over `ℤ`. -/
theorem fwht_hadamard_coefficients_witness :
    (fwht_slice ([1, 2, 3, 4] : List Int)).1 = Except.ok () ∧
    (fwht_slice ([1, 2, 3, 4] : List Int)).2.length =
      ([1, 2, 3, 4] : List Int).length ∧
    ∀ k, k < ([1, 2, 3, 4] : List Int).length →
      (fwht_slice ([1, 2, 3, 4] : List Int)).2.getD k 0 =
        ∑ i ∈ Finset.range ([1, 2, 3, 4] : List Int).length,
          ((-1 : ℤ) ^ popcount (i &&& k)) • ([1, 2, 3, 4] : List Int).getD i 0 :=
  fwht_hadamard_coefficients Int 2 [1, 2, 3, 4] rfl
